import Mathlib

/-!
Verification of `VidSrcToScraper.__deobf` (src/mov_cli_films/vidsrcto/scraper.py).

The engine is a pure string-to-string transform:
  1. alphabet normalization  `encoded_url.replace('_', '/').replace('-', '+')`
  2. `base64.b64decode` (CPython `binascii.a2b_base64`, non-strict mode)
  3. key scheduling over the fixed 16-byte secret `"8z5Ag5wgagfsOuhz"`
  4. keystream generation and XOR decryption
  5. `bytes.decode("utf-8")` (strict) followed by `urllib.parse.unquote`

Bytes are modelled as `Nat` values below 256; Python's `x & 0xff` on a
non-negative integer is written `x % 256`.  Shifts and masks in the CPython
base64 decoder combine disjoint bit ranges, so they are written with `*`, `/`
and `%` on `Nat`, which is exact for the value ranges involved.
-/

namespace MovCliFilms

/-- Failure cases of the pipeline.  `nonAscii` is the `ValueError` raised by
`base64.b64decode` on a non-ASCII string argument; `invalidLength` and
`incorrectPadding` are the two `binascii.Error` cases of non-strict
`a2b_base64`; `invalidUtf8` is `UnicodeDecodeError` from `bytes.decode`. -/
inductive DeobfError where
  | nonAscii
  | invalidLength
  | incorrectPadding
  | invalidUtf8
deriving DecidableEq, Repr

/-- UTF-8 bytes of the fixed key: `key_bytes = bytes("8z5Ag5wgagfsOuhz", 'utf-8')`.
The key is pure ASCII, so its bytes are the character code points. -/
def keyBytes : List Nat := "8z5Ag5wgagfsOuhz".data.map Char.toNat

/-- Python's parallel assignment `s[a], s[b] = s[b], s[a]`: both right-hand
values are read before either cell is written. -/
def lswap (l : List Nat) (a b : Nat) : List Nat :=
  (l.set a (l.getD b 0)).set b (l.getD a 0)

/-- One iteration of the key-scheduling loop:
`j = (j + s[i] + key_bytes[i % len(key_bytes)]) & 0xff` then the swap. -/
def ksaFold (sj : List Nat × Nat) (i : Nat) : List Nat × Nat :=
  let j := (sj.2 + sj.1.getD i 0 + keyBytes.getD (i % keyBytes.length) 0) % 256
  (lswap sj.1 i j, j)

/-- The scheduled table: `s = bytearray(range(256)); j = 0; for i in range(256): ...`. -/
def ksa : List Nat := ((List.range 256).foldl ksaFold (List.range 256, 0)).1

/-- State of the decryption loop: the table `s` and the indices `i` and `k`. -/
structure PrgaState where
  s : List Nat
  i : Nat
  k : Nat
deriving DecidableEq, Repr

/-- One iteration of the decryption loop body (everything except the XOR with
the data byte): returns the successor state and the keystream byte `s[t]`. -/
def prgaStep (st : PrgaState) : PrgaState × Nat :=
  let i := (st.i + 1) % 256
  let k := (st.k + st.s.getD i 0) % 256
  let s := lswap st.s i k
  let t := (s.getD i 0 + s.getD k 0) % 256
  (⟨s, i, k⟩, s.getD t 0)

/-- The decryption loop: `decoded[index] = binary_data[index] ^ s[t]`, consuming
the byte sequence in index order.  (The preallocated `bytearray` of the source
is written exactly once per index, in order, so building the list in order is
the same computation.) -/
def decryptLoop : List Nat → PrgaState → List Nat
  | [], _ => []
  | b :: rest, st => (b ^^^ (prgaStep st).2) :: decryptLoop rest (prgaStep st).1

/-- CPython's `table_a2b_base64`: value of one base64 alphabet character. -/
def b64Table (c : Char) : Option Nat :=
  if 'A' ≤ c ∧ c ≤ 'Z' then some (c.toNat - 65)
  else if 'a' ≤ c ∧ c ≤ 'z' then some (c.toNat - 97 + 26)
  else if '0' ≤ c ∧ c ≤ '9' then some (c.toNat - 48 + 52)
  else if c = '+' then some 62
  else if c = '/' then some 63
  else none

/-- CPython `binascii.a2b_base64` in non-strict mode (the mode used by
`base64.b64decode` with `validate=False`): characters outside the alphabet are
skipped; `=` with at least two data characters in the current quad and enough
accumulated pads ends decoding successfully, ignoring the rest of the input;
`=` earlier in a quad is ignored (legacy behaviour); at end of input a quad
position of 1 is the "number of data characters cannot be 1 more than a
multiple of 4" error and positions 2 and 3 are "Incorrect padding".  Output
bytes are emitted eagerly, one per data character from the second of each quad
on.  Arguments after the input are `quad_pos`, `leftchar` and `pads`. -/
def a2b : List Char → Nat → Nat → Nat → Except DeobfError (List Nat)
  | [], quadPos, _, _ =>
    if quadPos = 0 then .ok []
    else if quadPos = 1 then .error .invalidLength
    else .error .incorrectPadding
  | c :: rest, quadPos, leftchar, pads =>
    if c = '=' then
      if 2 ≤ quadPos ∧ 4 ≤ quadPos + (pads + 1) then .ok []
      else a2b rest quadPos leftchar (if 2 ≤ quadPos then pads + 1 else pads)
    else
      match b64Table c with
      | none => a2b rest quadPos leftchar pads
      | some v =>
        if quadPos = 0 then a2b rest 1 v 0
        else if quadPos = 1 then
          (a2b rest 2 (v % 16) 0).map (fun bs => (leftchar * 4 + v / 16) :: bs)
        else if quadPos = 2 then
          (a2b rest 3 (v % 4) 0).map (fun bs => (leftchar * 16 + v / 4) :: bs)
        else
          (a2b rest 0 0 0).map (fun bs => (leftchar * 64 + v) :: bs)

/-- `base64.b64decode` on a `str` argument: the string must be pure ASCII
(otherwise `ValueError`), then non-strict `a2b_base64` runs. -/
def b64decode (l : List Char) : Except DeobfError (List Nat) :=
  if l.all (fun c => c.toNat < 128) then a2b l 0 0 0 else .error .nonAscii

/-- Strict UTF-8 decoding of a byte list into its code points, following the
standard byte-range table (rejecting overlong forms, surrogates, values above
U+10FFFF and truncated sequences), as `bytes.decode("utf-8")` does. -/
def utf8Decode : List Nat → Option (List Nat)
  | [] => some []
  | b :: rest =>
    if b < 128 then (utf8Decode rest).map (fun cps => b :: cps)
    else if b < 194 then none
    else if b < 224 then
      match rest with
      | c1 :: rest1 =>
        if 128 ≤ c1 ∧ c1 < 192 then
          (utf8Decode rest1).map (fun cps => ((b - 192) * 64 + (c1 - 128)) :: cps)
        else none
      | [] => none
    else if b < 240 then
      match rest with
      | c1 :: rest1 =>
        if (if b = 224 then 160 else 128) ≤ c1 ∧ c1 < (if b = 237 then 160 else 192) then
          match rest1 with
          | c2 :: rest2 =>
            if 128 ≤ c2 ∧ c2 < 192 then
              (utf8Decode rest2).map
                (fun cps => ((b - 224) * 4096 + (c1 - 128) * 64 + (c2 - 128)) :: cps)
            else none
          | [] => none
        else none
      | [] => none
    else if b < 245 then
      match rest with
      | c1 :: rest1 =>
        if (if b = 240 then 144 else 128) ≤ c1 ∧ c1 < (if b = 244 then 144 else 192) then
          match rest1 with
          | c2 :: rest2 =>
            if 128 ≤ c2 ∧ c2 < 192 then
              match rest2 with
              | c3 :: rest3 =>
                if 128 ≤ c3 ∧ c3 < 192 then
                  (utf8Decode rest3).map (fun cps =>
                    ((b - 240) * 262144 + (c1 - 128) * 4096 + (c2 - 128) * 64 + (c3 - 128)) :: cps)
                else none
              | [] => none
            else none
          | [] => none
        else none
      | [] => none
    else none

/-- UTF-8 decoding with `errors="replace"`: each maximal subpart of an invalid
sequence becomes one U+FFFD (65533), as in CPython's decoder. -/
def utf8DecodeReplace : List Nat → List Nat
  | [] => []
  | b :: rest =>
    if b < 128 then b :: utf8DecodeReplace rest
    else if b < 194 then 65533 :: utf8DecodeReplace rest
    else if b < 224 then
      match rest with
      | c1 :: rest1 =>
        if 128 ≤ c1 ∧ c1 < 192 then ((b - 192) * 64 + (c1 - 128)) :: utf8DecodeReplace rest1
        else 65533 :: utf8DecodeReplace (c1 :: rest1)
      | [] => [65533]
    else if b < 240 then
      match rest with
      | c1 :: rest1 =>
        if (if b = 224 then 160 else 128) ≤ c1 ∧ c1 < (if b = 237 then 160 else 192) then
          match rest1 with
          | c2 :: rest2 =>
            if 128 ≤ c2 ∧ c2 < 192 then
              ((b - 224) * 4096 + (c1 - 128) * 64 + (c2 - 128)) :: utf8DecodeReplace rest2
            else 65533 :: utf8DecodeReplace (c2 :: rest2)
          | [] => [65533]
        else 65533 :: utf8DecodeReplace (c1 :: rest1)
      | [] => [65533]
    else if b < 245 then
      match rest with
      | c1 :: rest1 =>
        if (if b = 240 then 144 else 128) ≤ c1 ∧ c1 < (if b = 244 then 144 else 192) then
          match rest1 with
          | c2 :: rest2 =>
            if 128 ≤ c2 ∧ c2 < 192 then
              match rest2 with
              | c3 :: rest3 =>
                if 128 ≤ c3 ∧ c3 < 192 then
                  ((b - 240) * 262144 + (c1 - 128) * 4096 + (c2 - 128) * 64 + (c3 - 128)) ::
                    utf8DecodeReplace rest3
                else 65533 :: utf8DecodeReplace (c3 :: rest3)
              | [] => [65533]
            else 65533 :: utf8DecodeReplace (c2 :: rest2)
          | [] => [65533]
        else 65533 :: utf8DecodeReplace (c1 :: rest1)
      | [] => [65533]
    else 65533 :: utf8DecodeReplace rest

/-- Value of an ASCII hex digit, upper or lower case (the keys of CPython's
`_hextobyte`). -/
def hexDigit (c : Nat) : Option Nat :=
  if 48 ≤ c ∧ c ≤ 57 then some (c - 48)
  else if 65 ≤ c ∧ c ≤ 70 then some (c - 55)
  else if 97 ≤ c ∧ c ≤ 102 then some (c - 87)
  else none

/-- `urllib.parse.unquote_to_bytes` on ASCII codes: a `%` followed by two hex
digits becomes one byte, any other `%` stays literal.  (CPython splits on `%`
and falls back to the literal piece on a `_hextobyte` miss; since the pieces
between `%` signs contain no `%`, rescanning them literally is the same.) -/
def unquoteToBytes : List Nat → List Nat
  | [] => []
  | 37 :: a :: b :: rest =>
    match hexDigit a, hexDigit b with
    | some ha, some hb => (ha * 16 + hb) :: unquoteToBytes rest
    | _, _ => 37 :: unquoteToBytes (a :: b :: rest)
  | c :: rest => c :: unquoteToBytes rest

/-- Worker for `urllib.parse.unquote`: `buf` accumulates (reversed) the current
maximal run of ASCII code points; at a non-ASCII code point or at the end the
run is percent-unquoted and decoded as UTF-8 with `errors="replace"` (this is
CPython's split of the string by `_asciire`, with only the ASCII runs passed
through `unquote_to_bytes` and `bytes.decode(encoding, errors)`). -/
def unquoteGo : List Nat → List Nat → List Nat
  | [], buf => utf8DecodeReplace (unquoteToBytes buf.reverse)
  | c :: rest, buf =>
    if c < 128 then unquoteGo rest (c :: buf)
    else utf8DecodeReplace (unquoteToBytes buf.reverse) ++ c :: unquoteGo rest []

/-- `urllib.parse.unquote(string)` with the default UTF-8 encoding and
`errors="replace"`, on code points. -/
def unquoteChars (l : List Nat) : List Nat := unquoteGo l []

/-- Python `str.replace` where both pattern and replacement are single
characters. -/
def pyReplace (l : List Char) (a b : Char) : List Char :=
  l.map fun c => if c = a then b else c

/-- `standardized_input = encoded_url.replace('_', '/').replace('-', '+')`. -/
def standardize (l : List Char) : List Char :=
  pyReplace (pyReplace l '_' '/') '-' '+'

/-- The deobfuscation engine `__deobf` itself.  The decryption loop takes the
scheduled table with both indices freshly zeroed; its output is decoded as
strict UTF-8 and percent-unquoted.  (The `isinstance` branches of the source
collapse to the integer branch, see `pyDecryptLoop` below.) -/
def deobf (encodedUrl : String) : Except DeobfError String :=
  match b64decode (standardize encodedUrl.data) with
  | .error e => .error e
  | .ok binaryData =>
    match utf8Decode (decryptLoop binaryData ⟨ksa, 0, 0⟩) with
    | none => .error .invalidUtf8
    | some cps => .ok (String.mk ((unquoteChars cps).map Char.ofNat))

/-- A Python value as the `isinstance` chain of the source distinguishes it:
an `int` (what indexing a `bytes` object yields), a `str`, or anything else. -/
inductive PyByte where
  | int (n : Nat)
  | str (cs : List Char)
  | other

/-- The decryption loop with the source's dynamic-type branching kept: a `str`
element goes through `ord`, an `int` element is XORed directly, and anything
else sets `decoded = False` (modelled as `none`, after which the result is no
byte string at all). -/
def pyDecryptLoop : List PyByte → PrgaState → Option (List Nat)
  | [], _ => some []
  | b :: rest, st =>
    match b with
    | .str cs =>
      (pyDecryptLoop rest (prgaStep st).1).map
        (fun ds => ((cs.headD 'A').toNat ^^^ (prgaStep st).2) :: ds)
    | .int n =>
      (pyDecryptLoop rest (prgaStep st).1).map (fun ds => (n ^^^ (prgaStep st).2) :: ds)
    | .other => none

/-- Modelled from the spec, section 4.1 step 3: the key schedule as a plain
recursion over the iteration counter, with `j` carried from one iteration to
the next and the swap performed after the index update. -/
def ksaSpecAux : Nat → Nat → List Nat → Nat → List Nat × Nat
  | 0, _, s, j => (s, j)
  | n + 1, i, s, j =>
    let j1 := (j + s.getD i 0 + keyBytes.getD (i % keyBytes.length) 0) % 256
    ksaSpecAux n (i + 1) (lswap s i j1) j1

/-- Modelled from the spec, section 4.1 step 3: 256 iterations starting from
the identity table and `j = 0`. -/
def ksaSpec : List Nat := (ksaSpecAux 256 0 (List.range 256) 0).1

/-- Modelled from the spec, section 4.1 step 4: for each position `p` of `B`,
in order: advance `i`, advance `k`, swap, form `t`, XOR `B[p]` with `S[t]`. -/
def prgaSpecAux : Nat → Nat → List Nat → List Nat → Nat → Nat → List Nat
  | 0, _, _, _, _, _ => []
  | n + 1, p, bs, s, i, k =>
    let i1 := (i + 1) % 256
    let k1 := (k + s.getD i1 0) % 256
    let s1 := lswap s i1 k1
    let t := (s1.getD i1 0 + s1.getD k1 0) % 256
    (bs.getD p 0 ^^^ s1.getD t 0) :: prgaSpecAux n (p + 1) bs s1 i1 k1

/-- Modelled from the spec, section 4.1 step 4: the whole decryption, indices
`i = 0`, `k = 0` freshly zeroed after the key schedule. -/
def prgaSpec (bs : List Nat) : List Nat := prgaSpecAux bs.length 0 bs ksa 0 0

/-- The standard base64 alphabet, for the reference encoder. -/
def b64Alpha : List Char :=
  "ABCDEFGHIJKLMNOPQRSTUVWXYZabcdefghijklmnopqrstuvwxyz0123456789+/".data

/-- Character of a 6-bit value. -/
def b64Chr (v : Nat) : Char := b64Alpha.getD v 'A'

/-- Modelled from the spec, section 8: an independent reference base64 encoder,
three bytes to four characters with `=` padding. -/
def b64Encode : List Nat → List Char
  | [] => []
  | [b1] => [b64Chr (b1 / 4), b64Chr (b1 % 4 * 16), '=', '=']
  | [b1, b2] => [b64Chr (b1 / 4), b64Chr (b1 % 4 * 16 + b2 / 16), b64Chr (b2 % 16 * 4), '=']
  | b1 :: b2 :: b3 :: rest =>
    b64Chr (b1 / 4) :: b64Chr (b1 % 4 * 16 + b2 / 16) :: b64Chr (b2 % 16 * 4 + b3 / 64) ::
      b64Chr (b3 % 64) :: b64Encode rest

/-- ASCII code of the upper-case hex digit of a value below 16. -/
def hexUpper (n : Nat) : Nat := if n < 10 then 48 + n else 55 + n

/-- Modelled from the spec, section 8: the matching percent-encoding for the
reference encoder; every byte becomes a three-character `%`-escape, which
`unquote` maps back to the byte. -/
def percentEncode : List Nat → List Nat
  | [] => []
  | b :: rest => 37 :: hexUpper (b / 16) :: hexUpper (b % 16) :: percentEncode rest

/-- UTF-8 encoding of one code point (standard 1-to-4 byte forms). -/
def utf8EncodeChar (c : Nat) : List Nat :=
  if c < 128 then [c]
  else if c < 2048 then [192 + c / 64, 128 + c % 64]
  else if c < 65536 then [224 + c / 4096, 128 + c / 64 % 64, 128 + c % 64]
  else [240 + c / 262144, 128 + c / 4096 % 64, 128 + c / 64 % 64, 128 + c % 64]

/-- UTF-8 encoding of a code point list. -/
def utf8Encode : List Nat → List Nat
  | [] => []
  | c :: rest => utf8EncodeChar c ++ utf8Encode rest

/-- The substitution applied when producing a token: the inverse of the
normalization of `__deobf`. -/
def substChar (c : Char) : Char := if c = '/' then '_' else if c = '+' then '-' else c

/-- Modelled from the spec, section 8: the full reference encoder.  Percent-
encode the plaintext's UTF-8 bytes, encrypt them with the same key stream
(XOR is symmetric), base64-encode and substitute the alphabet. -/
def encodeRef (m : String) : String :=
  let plainBytes := utf8Encode (m.data.map Char.toNat)
  let cipher := decryptLoop (percentEncode plainBytes) ⟨ksa, 0, 0⟩
  String.mk ((b64Encode cipher).map substChar)

/-- The key schedule stopped after `n` of its 256 iterations (`ksa` is `ksaUpTo 256`). -/
def ksaUpTo (n : Nat) : List Nat × Nat := (List.range n).foldl ksaFold (List.range 256, 0)

/-- The state-advancing part of one decryption-loop iteration. -/
def prgaNext (st : PrgaState) : PrgaState := (prgaStep st).1

/-- The simultaneous form of the two sequential character replacements of
`standardize`. -/
def stdChar (c : Char) : Char := if c = '_' then '/' else if c = '-' then '+' else c

/-! Helper lemmas: `List.set`, swaps and permutation preservation. -/

theorem getD_set_self (l : List Nat) (i v : Nat) (h : i < l.length) :
    (l.set i v).getD i 0 = v := by
  rw [List.getD_eq_getElem _ 0 (by simpa using h)]
  exact List.getElem_set_self ..

theorem getD_set_ne (l : List Nat) (i j v : Nat) (hne : i ≠ j) (h : j < l.length) :
    (l.set i v).getD j 0 = l.getD j 0 := by
  rw [List.getD_eq_getElem _ 0 (by simpa using h), List.getD_eq_getElem _ 0 h]
  exact List.getElem_set_ne hne ..

theorem getD_mem (l : List Nat) (i : Nat) (h : i < l.length) : l.getD i 0 ∈ l := by
  rw [List.getD_eq_getElem _ 0 h]
  exact List.getElem_mem h

theorem count_set (x : Nat) :
    ∀ (l : List Nat) (i : Nat) (v : Nat), i < l.length →
      (l.set i v).count x + (if l.getD i 0 = x then 1 else 0) =
        l.count x + (if v = x then 1 else 0)
  | [], i, v, h => by simp at h
  | a :: l, 0, v, _ => by
    simp only [List.set, List.getD_cons_zero, List.count_cons]
    by_cases hv : v = x <;> by_cases ha : a = x <;> simp [hv, ha] <;> omega
  | a :: l, i + 1, v, h => by
    have ih := count_set x l i v (by simpa using Nat.lt_of_succ_lt_succ h)
    simp only [List.set, List.getD_cons_succ, List.count_cons]
    by_cases ha : a = x <;> simp [ha] at ih ⊢ <;> omega

theorem lswap_length (l : List Nat) (a b : Nat) : (lswap l a b).length = l.length := by
  simp [lswap]

theorem lswap_perm (l : List Nat) (a b : Nat) (ha : a < l.length) (hb : b < l.length) :
    (lswap l a b).Perm l := by
  rw [List.perm_iff_count]
  intro x
  have h1 := count_set x l a (l.getD b 0) ha
  have hb1 : b < (l.set a (l.getD b 0)).length := by simpa using hb
  have h2 := count_set x (l.set a (l.getD b 0)) b (l.getD a 0) hb1
  have hmid : (l.set a (l.getD b 0)).getD b 0 = l.getD b 0 := by
    by_cases hab : a = b
    · subst hab
      exact getD_set_self l a _ ha
    · exact getD_set_ne l a b _ hab hb
  rw [hmid] at h2
  unfold lswap
  by_cases hxa : l.getD a 0 = x <;> by_cases hxb : l.getD b 0 = x <;>
    simp [hxa, hxb] at h1 h2 ⊢ <;> omega

theorem perm_range_lt (s : List Nat) (h : s.Perm (List.range 256)) (x : Nat) (hx : x ∈ s) :
    x < 256 := by
  have := h.mem_iff.1 hx
  simpa using this

theorem perm_range_length (s : List Nat) (h : s.Perm (List.range 256)) : s.length = 256 := by
  simpa using h.length_eq

/-! Helper lemmas: the key schedule. -/

theorem ksa_eq_ksaUpTo : ksa = (ksaUpTo 256).1 := rfl

theorem ksaUpTo_succ (n : Nat) : ksaUpTo (n + 1) = ksaFold (ksaUpTo n) n := by
  unfold ksaUpTo
  rw [List.range_succ n, List.foldl_append]
  rfl

theorem ksaFold_perm (sj : List Nat × Nat) (i : Nat) (hi : i < 256)
    (h : sj.1.Perm (List.range 256)) : (ksaFold sj i).1.Perm (List.range 256) := by
  have hlen : sj.1.length = 256 := perm_range_length _ h
  refine (lswap_perm _ _ _ (by omega) (by rw [hlen]; exact Nat.mod_lt _ (by omega))).trans h

theorem ksaUpTo_perm : ∀ n, n ≤ 256 → (ksaUpTo n).1.Perm (List.range 256)
  | 0, _ => by
    unfold ksaUpTo
    simp
  | n + 1, h => by
    rw [ksaUpTo_succ]
    exact ksaFold_perm _ n (by omega) (ksaUpTo_perm n (by omega))

theorem ksa_perm : ksa.Perm (List.range 256) := by
  rw [ksa_eq_ksaUpTo]
  exact ksaUpTo_perm 256 (by omega)

theorem ksa_length : ksa.length = 256 := perm_range_length _ ksa_perm

/-! Helper lemmas: the decryption loop state. -/

theorem prgaNext_perm (st : PrgaState) (h : st.s.Perm (List.range 256)) :
    (prgaNext st).s.Perm (List.range 256) := by
  have hlen : st.s.length = 256 := perm_range_length _ h
  unfold prgaNext prgaStep
  refine (lswap_perm _ _ _ ?_ ?_).trans h <;> rw [hlen] <;> exact Nat.mod_lt _ (by omega)

theorem prgaStep_ks_lt (st : PrgaState) (h : st.s.Perm (List.range 256)) :
    (prgaStep st).2 < 256 := by
  have hperm : (prgaNext st).s.Perm (List.range 256) := prgaNext_perm st h
  have hlen : (prgaNext st).s.length = 256 := perm_range_length _ hperm
  simp only [prgaNext, prgaStep] at hperm hlen ⊢
  refine perm_range_lt _ hperm _ (getD_mem _ _ ?_)
  rw [hlen]
  exact Nat.mod_lt _ (by omega)

theorem decryptLoop_length : ∀ (bs : List Nat) (st : PrgaState),
    (decryptLoop bs st).length = bs.length
  | [], _ => rfl
  | _ :: rest, st => by
    simpa [decryptLoop] using decryptLoop_length rest (prgaStep st).1

theorem decryptLoop_involution : ∀ (bs : List Nat) (st : PrgaState),
    decryptLoop (decryptLoop bs st) st = bs
  | [], _ => rfl
  | b :: rest, st => by
    simp only [decryptLoop]
    rw [Nat.xor_cancel_right, decryptLoop_involution rest (prgaStep st).1]

theorem xor_lt_256 (a b : Nat) (ha : a < 256) (hb : b < 256) : a ^^^ b < 256 := by
  have := Nat.bitwise_lt_two_pow (n := 8) (f := bne) ha hb
  simpa [HXor.hXor, Xor.xor, Nat.xor] using this

theorem decryptLoop_lt_256 : ∀ (bs : List Nat) (st : PrgaState),
    st.s.Perm (List.range 256) → (∀ b ∈ bs, b < 256) →
      ∀ c ∈ decryptLoop bs st, c < 256
  | [], _, _, _ => by simp [decryptLoop]
  | b :: rest, st, hperm, hbs => by
    simp only [decryptLoop, List.mem_cons]
    rintro c (rfl | hc)
    · exact xor_lt_256 _ _ (hbs b (by simp)) (prgaStep_ks_lt st hperm)
    · exact decryptLoop_lt_256 rest (prgaStep st).1 (prgaNext_perm st hperm)
        (fun x hx => hbs x (by simp [hx])) c hc

/-! Helper lemmas: the source loops agree with the spec-modelled recursions. -/

theorem ksaSpecAux_eq_foldl : ∀ (n i : Nat) (s : List Nat) (j : Nat),
    (List.range' i n).foldl ksaFold (s, j) = ksaSpecAux n i s j
  | 0, _, _, _ => rfl
  | n + 1, i, s, j => by
    rw [List.range'_succ i n 1]
    simp only [List.foldl_cons, ksaSpecAux, ksaFold]
    exact ksaSpecAux_eq_foldl n (i + 1) _ _

theorem ksa_eq_ksaSpec : ksa = ksaSpec := by
  unfold ksa ksaSpec
  nth_rewrite 2 [List.range_eq_range' 256]
  rw [ksaSpecAux_eq_foldl 256 0 (List.range 256) 0]

theorem getD_of_drop : ∀ (bs : List Nat) (p b : Nat) (t : List Nat),
    bs.drop p = b :: t → bs.getD p 0 = b
  | [], p, _, _, h => by simp at h
  | a :: bs, 0, b, t, h => by
    simp only [List.drop_zero] at h
    injection h with h1 h2
  | a :: bs, p + 1, b, t, h => by
    simp only [List.drop_succ_cons] at h
    simpa using getD_of_drop bs p b t h

theorem drop_succ_of_drop : ∀ (bs : List Nat) (p b : Nat) (t : List Nat),
    bs.drop p = b :: t → bs.drop (p + 1) = t
  | [], _, _, _, h => by simp at h
  | a :: bs, 0, b, t, h => by
    simp only [List.drop_zero] at h
    injection h with h1 h2
  | a :: bs, p + 1, b, t, h => by
    simp only [List.drop_succ_cons] at h
    simpa using drop_succ_of_drop bs p b t h

theorem prgaSpecAux_eq_decryptLoop : ∀ (tail : List Nat) (p : Nat) (bs : List Nat)
    (s : List Nat) (i k : Nat), bs.drop p = tail →
      prgaSpecAux tail.length p bs s i k = decryptLoop tail ⟨s, i, k⟩
  | [], _, _, _, _, _, _ => rfl
  | b :: tail, p, bs, s, i, k, h => by
    simp only [List.length_cons, prgaSpecAux, decryptLoop, prgaStep]
    rw [getD_of_drop bs p b tail h,
      prgaSpecAux_eq_decryptLoop tail (p + 1) bs _ _ _ (drop_succ_of_drop bs p b tail h)]

theorem prgaSpec_eq_decryptLoop (bs : List Nat) :
    prgaSpec bs = decryptLoop bs ⟨ksa, 0, 0⟩ :=
  prgaSpecAux_eq_decryptLoop bs 0 bs ksa 0 0 (by simp)

theorem pyDecryptLoop_int : ∀ (bs : List Nat) (st : PrgaState),
    pyDecryptLoop (bs.map PyByte.int) st = some (decryptLoop bs st)
  | [], _ => rfl
  | b :: rest, st => by
    simp only [List.map_cons, pyDecryptLoop, decryptLoop]
    rw [pyDecryptLoop_int rest (prgaStep st).1]
    rfl

/-! Helper lemmas: alphabet normalization and the token substitution. -/

theorem standardize_eq_map (l : List Char) : standardize l = l.map stdChar := by
  unfold standardize pyReplace
  rw [List.map_map]
  refine List.map_congr_left fun c _ => ?_
  by_cases h1 : c = '_'
  · simp [h1, stdChar, Function.comp]
  · by_cases h2 : c = '-' <;> simp [h1, h2, stdChar, Function.comp]

theorem standardize_subst (l : List Char) :
    standardize (l.map substChar) = standardize l := by
  rw [standardize_eq_map, standardize_eq_map, List.map_map]
  refine List.map_congr_left fun c _ => ?_
  by_cases h1 : c = '/'
  · simp [h1, substChar, stdChar, Function.comp]
  · by_cases h2 : c = '+'
    · simp [h1, h2, substChar, stdChar, Function.comp]
    · by_cases h3 : c = '_' <;> by_cases h4 : c = '-' <;>
        simp [h1, h2, h3, h4, substChar, stdChar, Function.comp]

theorem standardize_fix (l : List Char) (h : ∀ c ∈ l, c ≠ '_' ∧ c ≠ '-') :
    standardize l = l := by
  rw [standardize_eq_map]
  have : l.map stdChar = l.map id := by
    refine List.map_congr_left fun c hc => ?_
    simp [stdChar, (h c hc).1, (h c hc).2]
  rw [this, List.map_id]

/-! Helper lemmas: base64 round trip for the reference encoder. -/

theorem b64Alpha_props : ∀ c ∈ b64Alpha, c ≠ '=' ∧ c ≠ '_' ∧ c ≠ '-' ∧ c.toNat < 128 := by
  decide

theorem b64Chr_mem (v : Nat) : b64Chr v ∈ b64Alpha := by
  unfold b64Chr
  by_cases h : v < b64Alpha.length
  · rw [List.getD_eq_getElem _ _ h]
    exact List.getElem_mem h
  · rw [List.getD_eq_default _ _ (by omega)]
    decide

theorem b64Chr_ne_pad (v : Nat) : b64Chr v ≠ '=' := (b64Alpha_props _ (b64Chr_mem v)).1

theorem b64Encode_mem : ∀ (bs : List Nat), ∀ c ∈ b64Encode bs, c ∈ b64Alpha ∨ c = '='
  | [] => by simp [b64Encode]
  | [b1] => by
    intro c hc
    simp only [b64Encode, List.mem_cons, List.not_mem_nil, or_false] at hc
    rcases hc with rfl | rfl | rfl | rfl
    · exact .inl (b64Chr_mem _)
    · exact .inl (b64Chr_mem _)
    · exact .inr rfl
    · exact .inr rfl
  | [b1, b2] => by
    intro c hc
    simp only [b64Encode, List.mem_cons, List.not_mem_nil, or_false] at hc
    rcases hc with rfl | rfl | rfl | rfl
    · exact .inl (b64Chr_mem _)
    · exact .inl (b64Chr_mem _)
    · exact .inl (b64Chr_mem _)
    · exact .inr rfl
  | b1 :: b2 :: b3 :: rest => by
    intro c hc
    simp only [b64Encode, List.mem_cons] at hc
    rcases hc with rfl | rfl | rfl | rfl | hc
    · exact .inl (b64Chr_mem _)
    · exact .inl (b64Chr_mem _)
    · exact .inl (b64Chr_mem _)
    · exact .inl (b64Chr_mem _)
    · exact b64Encode_mem rest c hc

theorem b64Table_chr : ∀ v, v < 64 → b64Table (b64Chr v) = some v := by decide

theorem a2b_cons_data0 (c : Char) (v : Nat) (rest : List Char) (lc p : Nat)
    (hne : c ≠ '=') (ht : b64Table c = some v) :
    a2b (c :: rest) 0 lc p = a2b rest 1 v 0 := by
  simp [a2b, hne, ht]

theorem a2b_cons_data1 (c : Char) (v : Nat) (rest : List Char) (lc p : Nat)
    (hne : c ≠ '=') (ht : b64Table c = some v) :
    a2b (c :: rest) 1 lc p = (a2b rest 2 (v % 16) 0).map (fun bs => (lc * 4 + v / 16) :: bs) := by
  simp [a2b, hne, ht]

theorem a2b_cons_data2 (c : Char) (v : Nat) (rest : List Char) (lc p : Nat)
    (hne : c ≠ '=') (ht : b64Table c = some v) :
    a2b (c :: rest) 2 lc p = (a2b rest 3 (v % 4) 0).map (fun bs => (lc * 16 + v / 4) :: bs) := by
  simp [a2b, hne, ht]

theorem a2b_cons_data3 (c : Char) (v : Nat) (rest : List Char) (lc p : Nat)
    (hne : c ≠ '=') (ht : b64Table c = some v) :
    a2b (c :: rest) 3 lc p = (a2b rest 0 0 0).map (fun bs => (lc * 64 + v) :: bs) := by
  simp [a2b, hne, ht]

theorem a2b_cons_pad_done (rest : List Char) (qp lc p : Nat) (h1 : 2 ≤ qp)
    (h2 : 4 ≤ qp + (p + 1)) : a2b ('=' :: rest) qp lc p = .ok [] := by
  simp [a2b, h1, h2]

theorem a2b_cons_pad_cont (rest : List Char) (qp lc p : Nat) (h1 : 2 ≤ qp)
    (h2 : ¬ 4 ≤ qp + (p + 1)) : a2b ('=' :: rest) qp lc p = a2b rest qp lc (p + 1) := by
  simp [a2b, h1, h2]

theorem a2b_b64Encode : ∀ (bs : List Nat), (∀ b ∈ bs, b < 256) →
    a2b (b64Encode bs) 0 0 0 = .ok bs
  | [], _ => rfl
  | [b1], h => by
    have hb1 : b1 < 256 := h b1 (by simp)
    simp only [b64Encode]
    rw [a2b_cons_data0 _ _ _ _ _ (b64Chr_ne_pad _) (b64Table_chr _ (by omega)),
      a2b_cons_data1 _ _ _ _ _ (b64Chr_ne_pad _) (b64Table_chr _ (by omega)),
      a2b_cons_pad_cont _ _ _ _ (by omega) (by omega),
      a2b_cons_pad_done _ _ _ _ (by omega) (by omega)]
    simp only [Except.map, List.cons.injEq]
    refine congrArg Except.ok ?_
    simp only [List.cons.injEq]
    exact ⟨by omega, trivial⟩
  | [b1, b2], h => by
    have hb1 : b1 < 256 := h b1 (by simp)
    have hb2 : b2 < 256 := h b2 (by simp)
    simp only [b64Encode]
    rw [a2b_cons_data0 _ _ _ _ _ (b64Chr_ne_pad _) (b64Table_chr _ (by omega)),
      a2b_cons_data1 _ _ _ _ _ (b64Chr_ne_pad _) (b64Table_chr _ (by omega)),
      a2b_cons_data2 _ _ _ _ _ (b64Chr_ne_pad _) (b64Table_chr _ (by omega)),
      a2b_cons_pad_done _ _ _ _ (by omega) (by omega)]
    simp only [Except.map]
    refine congrArg Except.ok ?_
    simp only [List.cons.injEq]
    exact ⟨by omega, by omega, trivial⟩
  | b1 :: b2 :: b3 :: rest, h => by
    have hb1 : b1 < 256 := h b1 (by simp)
    have hb2 : b2 < 256 := h b2 (by simp)
    have hb3 : b3 < 256 := h b3 (by simp)
    have ih := a2b_b64Encode rest (fun x hx => h x (by simp [hx]))
    simp only [b64Encode]
    rw [a2b_cons_data0 _ _ _ _ _ (b64Chr_ne_pad _) (b64Table_chr _ (by omega)),
      a2b_cons_data1 _ _ _ _ _ (b64Chr_ne_pad _) (b64Table_chr _ (by omega)),
      a2b_cons_data2 _ _ _ _ _ (b64Chr_ne_pad _) (b64Table_chr _ (by omega)),
      a2b_cons_data3 _ _ _ _ _ (b64Chr_ne_pad _) (b64Table_chr _ (by omega)), ih]
    simp only [Except.map]
    refine congrArg Except.ok ?_
    simp only [List.cons.injEq]
    exact ⟨by omega, by omega, by omega, trivial⟩

/-! Helper lemmas: percent-encoding and `unquote`. -/

theorem hexDigit_hexUpper (n : Nat) (h : n < 16) : hexDigit (hexUpper n) = some n := by
  unfold hexUpper hexDigit
  by_cases h10 : n < 10
  · rw [if_pos h10, if_pos ⟨by omega, by omega⟩]
    congr 1
    omega
  · rw [if_neg h10, if_neg (by omega), if_pos ⟨by omega, by omega⟩]
    congr 1
    omega

theorem hexUpper_lt128 (n : Nat) (h : n < 16) : hexUpper n < 128 := by
  unfold hexUpper
  split <;> omega

theorem percentEncode_lt128 : ∀ (bs : List Nat), (∀ b ∈ bs, b < 256) →
    ∀ x ∈ percentEncode bs, x < 128
  | [], _ => by simp [percentEncode]
  | b :: rest, h => by
    have hb : b < 256 := h b (by simp)
    intro x hx
    simp only [percentEncode, List.mem_cons] at hx
    rcases hx with rfl | rfl | rfl | hx
    · omega
    · exact hexUpper_lt128 _ (by omega)
    · exact hexUpper_lt128 _ (by omega)
    · exact percentEncode_lt128 rest (fun y hy => h y (by simp [hy])) x hx

theorem unquoteToBytes_percentEncode : ∀ (bs : List Nat), (∀ b ∈ bs, b < 256) →
    unquoteToBytes (percentEncode bs) = bs
  | [], _ => rfl
  | b :: rest, h => by
    have hb : b < 256 := h b (by simp)
    have ih := unquoteToBytes_percentEncode rest (fun x hx => h x (by simp [hx]))
    simp only [percentEncode, unquoteToBytes, hexDigit_hexUpper (b / 16) (by omega),
      hexDigit_hexUpper (b % 16) (by omega), ih]
    congr 1
    omega

theorem unquoteGo_ascii : ∀ (l buf : List Nat), (∀ b ∈ l, b < 128) →
    unquoteGo l buf = utf8DecodeReplace (unquoteToBytes (buf.reverse ++ l))
  | [], buf, _ => by simp [unquoteGo]
  | c :: rest, buf, h => by
    have hc : c < 128 := h c (by simp)
    simp only [unquoteGo, if_pos hc]
    rw [unquoteGo_ascii rest (c :: buf) (fun x hx => h x (by simp [hx]))]
    simp

theorem utf8Decode_ascii : ∀ (l : List Nat), (∀ b ∈ l, b < 128) → utf8Decode l = some l
  | [], _ => rfl
  | b :: rest, h => by
    have hb : b < 128 := h b (by simp)
    rw [utf8Decode.eq_def]
    simp only [hb, if_true, utf8Decode_ascii rest (fun x hx => h x (by simp [hx]))]
    rfl

/-! Helper lemmas: UTF-8 encoding round trips through the replace-mode decoder. -/

theorem utf8EncodeChar_lt256 (cp : Nat) (hv : cp < 1114112) :
    ∀ b ∈ utf8EncodeChar cp, b < 256 := by
  intro b hb
  unfold utf8EncodeChar at hb
  split_ifs at hb with h1 h2 h3 <;>
    simp only [List.mem_cons, List.not_mem_nil, or_false] at hb
  · omega
  · rcases hb with rfl | rfl <;> omega
  · rcases hb with rfl | rfl | rfl <;> omega
  · rcases hb with rfl | rfl | rfl | rfl <;> omega

theorem utf8Encode_lt256 : ∀ (cps : List Nat), (∀ cp ∈ cps, cp < 1114112) →
    ∀ b ∈ utf8Encode cps, b < 256
  | [], _ => by simp [utf8Encode]
  | cp :: rest, h => by
    intro b hb
    simp only [utf8Encode, List.mem_append] at hb
    rcases hb with hb | hb
    · exact utf8EncodeChar_lt256 cp (h cp (by simp)) b hb
    · exact utf8Encode_lt256 rest (fun x hx => h x (by simp [hx])) b hb

theorem utf8DecodeReplace_encodeChar (cp : Nat)
    (hv : cp < 55296 ∨ (57343 < cp ∧ cp < 1114112)) (rest : List Nat) :
    utf8DecodeReplace (utf8EncodeChar cp ++ rest) = cp :: utf8DecodeReplace rest := by
  unfold utf8EncodeChar
  by_cases h1 : cp < 128
  · rw [if_pos h1]
    simp only [List.cons_append, List.nil_append]
    rw [utf8DecodeReplace.eq_def]
    simp only [h1, if_true]
  · rw [if_neg h1]
    by_cases h2 : cp < 2048
    · rw [if_pos h2]
      have f1 : ¬ (192 + cp / 64 < 128) := by omega
      have f2 : ¬ (192 + cp / 64 < 194) := by omega
      have f3 : 192 + cp / 64 < 224 := by omega
      have f4 : 128 ≤ 128 + cp % 64 := by omega
      have f5 : 128 + cp % 64 < 192 := by omega
      simp only [List.cons_append, List.nil_append]
      rw [utf8DecodeReplace.eq_def]
      simp only [f1, f2, f3, f4, f5, if_true, if_false, and_self, and_true, true_and,
        List.cons.injEq]
      omega
    · rw [if_neg h2]
      by_cases h3 : cp < 65536
      · rw [if_pos h3]
        have f1 : ¬ (224 + cp / 4096 < 128) := by omega
        have f2 : ¬ (224 + cp / 4096 < 194) := by omega
        have f3 : ¬ (224 + cp / 4096 < 224) := by omega
        have f4 : 224 + cp / 4096 < 240 := by omega
        have f6 : 128 ≤ 128 + cp / 64 % 64 := by omega
        have f7 : 128 + cp / 64 % 64 < 192 := by omega
        have f8 : 128 ≤ 128 + cp % 64 := by omega
        have f9 : 128 + cp % 64 < 192 := by omega
        by_cases hq : cp < 4096
        · have e1 : 224 + cp / 4096 = 224 := by omega
          have e2 : ¬ (224 + cp / 4096 = 237) := by omega
          have f10 : 160 ≤ 128 + cp / 64 % 64 := by omega
          simp only [List.cons_append, List.nil_append]
          rw [utf8DecodeReplace.eq_def]
          simp only [f1, f2, f3, f4, f6, f7, f8, f9, e1, e2, f10, if_true, if_false, and_self, and_true, true_and, reduceIte, List.cons.injEq]
          simp [f6, f7, f8, f9, f10, List.cons.injEq]
          omega
        · by_cases hs : 53248 ≤ cp ∧ cp < 57344
          · have e1 : ¬ (224 + cp / 4096 = 224) := by omega
            have e2 : 224 + cp / 4096 = 237 := by omega
            have hcp : cp < 55296 := by
              rcases hv with hv | hv
              · exact hv
              · omega
            have f10 : 128 + cp / 64 % 64 < 160 := by omega
            simp only [List.cons_append, List.nil_append]
            rw [utf8DecodeReplace.eq_def]
            simp only [f1, f2, f3, f4, f6, f7, f8, f9, e1, e2, f10, if_true, if_false, and_self, and_true, true_and, reduceIte, List.cons.injEq]
            simp [f6, f7, f8, f9, f10, List.cons.injEq]
            omega
          · have e1 : ¬ (224 + cp / 4096 = 224) := by omega
            have e2 : ¬ (224 + cp / 4096 = 237) := by omega
            simp only [List.cons_append, List.nil_append]
            rw [utf8DecodeReplace.eq_def]
            simp only [f1, f2, f3, f4, f6, f7, f8, f9, e1, e2, if_true, if_false, and_self, and_true, true_and, reduceIte, List.cons.injEq]
            omega
      · rw [if_neg h3]
        have hb : cp < 1114112 := by
          rcases hv with hv | hv
          · omega
          · exact hv.2
        have f1 : ¬ (240 + cp / 262144 < 128) := by omega
        have f2 : ¬ (240 + cp / 262144 < 194) := by omega
        have f3 : ¬ (240 + cp / 262144 < 224) := by omega
        have f4 : ¬ (240 + cp / 262144 < 240) := by omega
        have f5 : 240 + cp / 262144 < 245 := by omega
        have f6 : 128 ≤ 128 + cp / 4096 % 64 := by omega
        have f7 : 128 + cp / 4096 % 64 < 192 := by omega
        have f8 : 128 ≤ 128 + cp / 64 % 64 := by omega
        have f9 : 128 + cp / 64 % 64 < 192 := by omega
        have f10 : 128 ≤ 128 + cp % 64 := by omega
        have f11 : 128 + cp % 64 < 192 := by omega
        by_cases hq : cp < 262144
        · have e1 : 240 + cp / 262144 = 240 := by omega
          have e2 : ¬ (240 + cp / 262144 = 244) := by omega
          have f12 : 144 ≤ 128 + cp / 4096 % 64 := by omega
          simp only [List.cons_append, List.nil_append]
          rw [utf8DecodeReplace.eq_def]
          simp only [f1, f2, f3, f4, f5, f6, f7, f8, f9, f10, f11, e1, e2, f12, if_true, if_false, and_self, and_true, true_and, reduceIte, List.cons.injEq]
          simp [f6, f7, f8, f9, f10, f11, f12, List.cons.injEq]
          omega
        · by_cases hr : 1048576 ≤ cp
          · have e1 : ¬ (240 + cp / 262144 = 240) := by omega
            have e2 : 240 + cp / 262144 = 244 := by omega
            have f12 : 128 + cp / 4096 % 64 < 144 := by omega
            simp only [List.cons_append, List.nil_append]
            rw [utf8DecodeReplace.eq_def]
            simp only [f1, f2, f3, f4, f5, f6, f7, f8, f9, f10, f11, e1, e2, f12, if_true, if_false, and_self, and_true, true_and, reduceIte, List.cons.injEq]
            simp [f6, f7, f8, f9, f10, f11, f12, List.cons.injEq]
            omega
          · have e1 : ¬ (240 + cp / 262144 = 240) := by omega
            have e2 : ¬ (240 + cp / 262144 = 244) := by omega
            simp only [List.cons_append, List.nil_append]
            rw [utf8DecodeReplace.eq_def]
            simp only [f1, f2, f3, f4, f5, f6, f7, f8, f9, f10, f11, e1, e2, if_true, if_false, and_self, and_true, true_and, reduceIte, List.cons.injEq]
            omega

theorem utf8DecodeReplace_encode : ∀ (cps : List Nat),
    (∀ cp ∈ cps, cp < 55296 ∨ (57343 < cp ∧ cp < 1114112)) →
      utf8DecodeReplace (utf8Encode cps) = cps
  | [], _ => rfl
  | cp :: rest, h => by
    simp only [utf8Encode]
    rw [utf8DecodeReplace_encodeChar cp (h cp (by simp)) (utf8Encode rest),
      utf8DecodeReplace_encode rest (fun x hx => h x (by simp [hx]))]

/-! Helper lemmas: characters and strings. -/

theorem char_toNat_valid (c : Char) :
    c.toNat < 55296 ∨ (57343 < c.toNat ∧ c.toNat < 1114112) := c.valid

theorem map_ofNat_toNat (l : List Char) : (l.map Char.toNat).map Char.ofNat = l := by
  rw [List.map_map]
  have h : l.map (Char.ofNat ∘ Char.toNat) = l.map id :=
    List.map_congr_left fun c _ => Char.ofNat_toNat c
  rw [h, List.map_id]

/-! Helper lemmas: the non-strict decoder discards foreign characters. -/

theorem a2b_cons_data (c : Char) (v : Nat) (rest : List Char) (qp lc p : Nat)
    (hne : c ≠ '=') (ht : b64Table c = some v) :
    a2b (c :: rest) qp lc p =
      if qp = 0 then a2b rest 1 v 0
      else if qp = 1 then (a2b rest 2 (v % 16) 0).map (fun bs => (lc * 4 + v / 16) :: bs)
      else if qp = 2 then (a2b rest 3 (v % 4) 0).map (fun bs => (lc * 16 + v / 4) :: bs)
      else (a2b rest 0 0 0).map (fun bs => (lc * 64 + v) :: bs) := by
  simp [a2b, hne, ht]

theorem a2b_cons_skip (c : Char) (rest : List Char) (qp lc p : Nat)
    (hne : c ≠ '=') (ht : b64Table c = none) : a2b (c :: rest) qp lc p = a2b rest qp lc p := by
  simp [a2b, hne, ht]

theorem a2b_cons_pad (rest : List Char) (qp lc p : Nat)
    (h2 : ¬ (2 ≤ qp ∧ 4 ≤ qp + (p + 1))) :
    a2b ('=' :: rest) qp lc p = a2b rest qp lc (if 2 ≤ qp then p + 1 else p) := by
  simp [a2b, h2]

theorem a2b_filter : ∀ (l : List Char) (qp lc p : Nat),
    a2b l qp lc p = a2b (l.filter (fun c => (b64Table c).isSome || c = '=')) qp lc p
  | [], _, _, _ => rfl
  | c :: rest, qp, lc, p => by
    by_cases hpad : c = '='
    · subst hpad
      rw [List.filter_cons_of_pos (by simp)]
      by_cases hdone : 2 ≤ qp ∧ 4 ≤ qp + (p + 1)
      · rw [a2b_cons_pad_done _ _ _ _ hdone.1 hdone.2,
          a2b_cons_pad_done _ _ _ _ hdone.1 hdone.2]
      · rw [a2b_cons_pad _ _ _ _ hdone, a2b_cons_pad _ _ _ _ hdone,
          a2b_filter rest qp lc (if 2 ≤ qp then p + 1 else p)]
    · match ht : b64Table c with
      | some v =>
        rw [List.filter_cons_of_pos (by simp [ht]),
          a2b_cons_data c v rest qp lc p hpad ht, a2b_cons_data c v _ qp lc p hpad ht,
          a2b_filter rest 1 v 0, a2b_filter rest 2 (v % 16) 0, a2b_filter rest 3 (v % 4) 0,
          a2b_filter rest 0 0 0]
      | none =>
        rw [List.filter_cons_of_neg (by simp [ht, hpad]),
          a2b_cons_skip c rest qp lc p hpad ht, a2b_filter rest qp lc p]

/-- Behaviour of `deobf` once the base64 step has produced a byte sequence. -/
theorem deobf_ok (t : String) (bs : List Nat)
    (hb : b64decode (standardize t.data) = .ok bs) :
    deobf t = match utf8Decode (decryptLoop bs ⟨ksa, 0, 0⟩) with
      | none => .error .invalidUtf8
      | some cps => .ok (String.mk ((unquoteChars cps).map Char.ofNat)) := by
  unfold deobf
  rw [hb]

/-! The claims. -/

set_option maxRecDepth 8192 in
/-- C1: for every plaintext string, building a token with the reference encoder
(percent-encode the UTF-8 bytes, encrypt with the keystream for the fixed
secret, base64-encode, substitute the alphabet) and running the full
deobfuscation pipeline returns exactly the plaintext:
`decode(encode(plain)) = plain` for all plaintexts, including the empty string,
ASCII and multi-byte UTF-8 text. -/
theorem c1_round_trip (m : String) : deobf (encodeRef m) = .ok m := by
  have hvalid : ∀ cp ∈ m.data.map Char.toNat, cp < 55296 ∨ (57343 < cp ∧ cp < 1114112) := by
    intro cp hcp
    obtain ⟨c, _, rfl⟩ := List.mem_map.1 hcp
    exact char_toNat_valid c
  have hpb : ∀ b ∈ utf8Encode (m.data.map Char.toNat), b < 256 :=
    utf8Encode_lt256 _ (fun cp hcp => by rcases hvalid cp hcp with h | h <;> omega)
  have hpe : ∀ x ∈ percentEncode (utf8Encode (m.data.map Char.toNat)), x < 128 :=
    percentEncode_lt128 _ hpb
  have hpe256 : ∀ x ∈ percentEncode (utf8Encode (m.data.map Char.toNat)), x < 256 :=
    fun x hx => by have := hpe x hx; omega
  have hcipher : ∀ x ∈ decryptLoop (percentEncode (utf8Encode (m.data.map Char.toNat)))
      ⟨ksa, 0, 0⟩, x < 256 :=
    decryptLoop_lt_256 _ _ ksa_perm hpe256
  have hchars := b64Encode_mem (decryptLoop (percentEncode (utf8Encode
    (m.data.map Char.toNat))) ⟨ksa, 0, 0⟩)
  have h1 : standardize (encodeRef m).data =
      b64Encode (decryptLoop (percentEncode (utf8Encode (m.data.map Char.toNat)))
        ⟨ksa, 0, 0⟩) := by
    show standardize ((b64Encode _).map substChar) = _
    rw [standardize_subst]
    refine standardize_fix _ (fun c hc => ?_)
    rcases hchars c hc with h | rfl
    · exact ⟨(b64Alpha_props c h).2.1, (b64Alpha_props c h).2.2.1⟩
    · exact ⟨by decide, by decide⟩
  have hall : (b64Encode (decryptLoop (percentEncode (utf8Encode (m.data.map Char.toNat)))
      ⟨ksa, 0, 0⟩)).all (fun c => c.toNat < 128) = true := by
    rw [List.all_eq_true]
    intro c hc
    rcases hchars c hc with h | rfl
    · simpa using (b64Alpha_props c h).2.2.2
    · decide
  have h2 : b64decode (standardize (encodeRef m).data) =
      .ok (decryptLoop (percentEncode (utf8Encode (m.data.map Char.toNat))) ⟨ksa, 0, 0⟩) := by
    rw [h1]
    unfold b64decode
    rw [if_pos hall]
    exact a2b_b64Encode _ hcipher
  rw [deobf_ok (encodeRef m) _ h2, decryptLoop_involution, utf8Decode_ascii _ hpe]
  have h5 : unquoteChars (percentEncode (utf8Encode (m.data.map Char.toNat))) =
      m.data.map Char.toNat := by
    unfold unquoteChars
    rw [unquoteGo_ascii _ [] hpe]
    simp only [List.reverse_nil, List.nil_append]
    rw [unquoteToBytes_percentEncode _ hpb, utf8DecodeReplace_encode _ hvalid]
  show Except.ok (String.mk ((unquoteChars _).map Char.ofNat)) = .ok m
  rw [h5, map_ofNat_toNat]

/-- C2: the key schedule is the classic stream-cipher KSA: the table starts as
the identity on 0..255, the key has 16 bytes, and the loop agrees with the
spec's recursion in which `j` starts at 0, is updated by
`j = (j + S[i] + K[i mod klen]) mod 256` before the swap, and carries across
all 256 iterations. -/
theorem c2_key_schedule :
    keyBytes.length = 16 ∧ ksa = ksaSpec ∧
      (∀ i, i < 256 → (List.range 256).getD i 0 = i) := by
  refine ⟨by decide, ksa_eq_ksaSpec, fun i hi => ?_⟩
  rw [List.getD_eq_getElem _ 0 (by simpa using hi)]
  simp

/-- C2 witness: the conjuncts hold at the concrete index 7. -/
theorem c2_key_schedule_witness :
    keyBytes.length = 16 ∧ (List.range 256).getD 7 0 = 7 :=
  ⟨c2_key_schedule.1, c2_key_schedule.2.2 7 (by decide)⟩

/-- C3: the decryption loop is exactly the spec's PRGA: starting from the
scheduled table with `i = 0`, `k = 0` freshly zeroed, each position advances
`i`, then `k`, swaps, forms `t = (S[i] + S[k]) mod 256` and XORs the data byte
with `S[t]`, mutating the table throughout; the output has the input's
length. -/
theorem c3_prga (bs : List Nat) :
    decryptLoop bs ⟨ksa, 0, 0⟩ = prgaSpec bs ∧
      (decryptLoop bs ⟨ksa, 0, 0⟩).length = bs.length :=
  ⟨(prgaSpec_eq_decryptLoop bs).symm, decryptLoop_length bs _⟩

/-- C4: normalization replaces `_` with `/` and `-` with `+` (exactly this
direction) before base64 decoding, so a token written with the substituted
characters decodes exactly like its standard-alphabet equivalent. -/
theorem c4_normalization :
    (∀ l : List Char, standardize l = l.map stdChar) ∧
      (∀ t : String, deobf (String.mk (t.data.map substChar)) = deobf t) := by
  refine ⟨standardize_eq_map, fun t => ?_⟩
  unfold deobf
  rw [show (String.mk (t.data.map substChar)).data = t.data.map substChar from rfl,
    standardize_subst]

/-- C5 counterexample: the token `"*"` consists of one character outside the
base64 alphabet, yet `__deobf` succeeds and returns the empty string (the
character is silently discarded by non-strict `b64decode`), contradicting the
claim that every such token fails with a DecodeError. -/
theorem c5_counterexample : deobf "*" = .ok "" := rfl

/-- C5 amended: ASCII characters outside the base64 alphabet are silently
discarded by the base64 step rather than rejected — decoding any character
sequence equals decoding its subsequence of alphabet and `=` characters — and
`__deobf` fails with a DecodeError only for genuinely malformed padding of the
surviving data characters: a data-character count of 1 mod 4 (invalid length)
or an incomplete unpadded final group (incorrect padding); in those cases no
output is produced. -/
theorem c5_amended :
    (∀ (l : List Char) (qp lc p : Nat),
        a2b l qp lc p = a2b (l.filter (fun c => (b64Table c).isSome || c = '=')) qp lc p) ∧
      deobf "Q" = .error .invalidLength ∧ deobf "QQ" = .error .incorrectPadding :=
  ⟨a2b_filter, rfl, rfl⟩

/-- C6: when the decrypted bytes are not valid UTF-8 the pipeline fails with
the UTF-8 DecodeError, and when they are valid UTF-8 the decoded text is
percent-unquoted and returned. -/
theorem c6_utf8_gate (t : String) (bs : List Nat)
    (hb : b64decode (standardize t.data) = .ok bs) :
    (utf8Decode (decryptLoop bs ⟨ksa, 0, 0⟩) = none → deobf t = .error .invalidUtf8) ∧
      (∀ cps, utf8Decode (decryptLoop bs ⟨ksa, 0, 0⟩) = some cps →
        deobf t = .ok (String.mk ((unquoteChars cps).map Char.ofNat))) := by
  constructor
  · intro hu
    rw [deobf_ok t bs hb, hu]
  · intro cps hu
    rw [deobf_ok t bs hb, hu]

set_option maxRecDepth 8192 in
/-- C6 witness: the token `"wg=="` decrypts to the byte 255, which is not
valid UTF-8, and fails; the token `"fA=="` decrypts to the byte 65 and
returns `"A"`. -/
theorem c6_utf8_gate_witness :
    deobf "wg==" = .error .invalidUtf8 ∧ deobf "fA==" = .ok "A" := by
  constructor
  · exact (c6_utf8_gate "wg==" [194] rfl).1 rfl
  · rw [(c6_utf8_gate "fA==" [124] rfl).2 [65] rfl]
    rfl

/-- C7: the empty token decodes to the empty string without error: the base64
step yields the empty byte sequence, the key schedule is still the full
256-iteration schedule, and the decryption loop runs zero iterations. -/
theorem c7_empty :
    deobf "" = .ok "" ∧ b64decode (standardize "".data) = .ok [] ∧
      decryptLoop [] ⟨ksa, 0, 0⟩ = [] ∧ ksa = ksaSpec :=
  ⟨rfl, rfl, rfl, ksa_eq_ksaSpec⟩

/-- C8: `__deobf` is deterministic: its result is a function of the token
alone (the key is a fixed constant and no state survives between calls), so
any two results of the same token are equal. -/
theorem c8_deterministic (t : String) (r1 r2 : Except DeobfError String)
    (h1 : deobf t = r1) (h2 : deobf t = r2) : r1 = r2 :=
  h1.symm.trans h2

/-- C8 witness: two runs on the empty token agree. -/
theorem c8_deterministic_witness :
    deobf "" = .ok "" ∧ (Except.ok "" : Except DeobfError String) = .ok "" :=
  ⟨rfl, c8_deterministic "" (.ok "") (.ok "") rfl rfl⟩

/-- C9: on a byte sequence (every element an integer, as indexing a Python
`bytes` yields), the decryption loop with the source's `isinstance` branching
always takes the integer branch: the `decoded = False` branch is unreachable
and the loop returns the byte string computed by the plain XOR loop, never the
`False` sentinel. -/
theorem c9_false_unreachable (bs : List Nat) (st : PrgaState) :
    pyDecryptLoop (bs.map PyByte.int) st = some (decryptLoop bs st) ∧
      pyDecryptLoop (bs.map PyByte.int) st ≠ none := by
  refine ⟨pyDecryptLoop_int bs st, ?_⟩
  rw [pyDecryptLoop_int bs st]
  simp

/-- C10: the 256-entry table is a permutation of 0..255 at every point: at
initialization, after each of the 256 key-schedule iterations, and after each
swap of the decryption loop. -/
theorem c10_permutation :
    (List.range 256).Perm (List.range 256) ∧
      (∀ n, n ≤ 256 → (ksaUpTo n).1.Perm (List.range 256)) ∧
      (∀ p, (prgaNext^[p] ⟨ksa, 0, 0⟩).s.Perm (List.range 256)) := by
  refine ⟨List.Perm.refl _, ksaUpTo_perm, fun p => ?_⟩
  induction p with
  | zero => simpa using ksa_perm
  | succ n ih =>
    rw [Function.iterate_succ_apply']
    exact prgaNext_perm _ ih

/-- C10 witness: the table is a permutation after two key-schedule iterations
and after one decryption-loop swap. -/
theorem c10_permutation_witness :
    (ksaUpTo 2).1.Perm (List.range 256) ∧
      (prgaNext^[1] ⟨ksa, 0, 0⟩).s.Perm (List.range 256) :=
  ⟨c10_permutation.2.1 2 (by omega), c10_permutation.2.2 1⟩

end MovCliFilms
